import Mathlib

/-!
Shallow embedding of the BaseService repository: the process supervision
module (singleprocesshandler.py) and the utility module (utils.py), together
with theorems checking the specification claims against the embedded code.
-/

/-- Control payloads carried over the duplex pipe: the STOP string, the
TEST_ALIVE string, a boolean liveness reply, or any other payload. -/
inductive PipeMsg where
  | stopMsg
  | testAlive
  | aliveReply (b : Bool)
  | otherMsg
deriving DecidableEq

/-- Parent side view of a multiprocessing Connection endpoint: whether it has
been closed. -/
structure Conn where
  closed : Bool

/-- Connection.send: raises when the endpoint is already closed, otherwise the
message is enqueued for the peer. -/
def Conn.send (c : Conn) (m : PipeMsg) : Except Unit (List PipeMsg) :=
  if c.closed then .error () else .ok [m]

/-- Supervisor side mutable state of a SingleProcessHandler: the intentional
stop event, the optional parent pipe endpoint and the optional process
handle (a pid). -/
structure HandlerState where
  stopWasCalled : Bool
  parentPipe : Option Conn
  processHandle : Option Nat

/-- Invariant of the parent side: the parent pipe attribute, when present,
refers to an open endpoint.  SingleProcessHandler never closes the parent
endpoint without also clearing the attribute (the only close is in _close). -/
def HandlerState.pipeOpen (s : HandlerState) : Prop :=
  ∀ c, s.parentPipe = some c → c.closed = false

/-- Body of SingleProcessHandler.stop: set the stop event and, if the parent
pipe attribute is not None, send STOP over it.  Returns the new state and the
messages put on the channel, or the error raised by send. -/
def SingleProcessHandler.stop (s : HandlerState) :
    Except Unit (HandlerState × List PipeMsg) :=
  let s₁ : HandlerState := ⟨true, s.parentPipe, s.processHandle⟩
  match s.parentPipe with
  | none => .ok (s₁, [])
  | some c =>
    match c.send PipeMsg.stopMsg with
    | .error e => .error e
    | .ok ms => .ok (s₁, ms)

/-- Body of SingleProcessHandler._close: if the parent pipe is present, close
it and clear the attribute.  The process handle is not touched. -/
def SingleProcessHandler.close (s : HandlerState) : HandlerState :=
  match s.parentPipe with
  | none => s
  | some _ => ⟨s.stopWasCalled, none, s.processHandle⟩

/-- Body of SingleProcessHandler.is_alive: a process handle exists and the
operating system (os) reports that pid as running. -/
def SingleProcessHandler.is_alive (os : Nat → Bool) (s : HandlerState) : Bool :=
  match s.processHandle with
  | some p => os p
  | none => false

/-- Operating system calls issued against the child process. -/
inductive OsCall where
  | terminateProc (p : Nat)
  | killProc (p : Nat)
deriving DecidableEq

/-- Body of SingleProcessHandler.terminate: if is_alive, call terminate on the
process handle (an absent handle there would raise). -/
def SingleProcessHandler.terminate (os : Nat → Bool) (s : HandlerState) :
    Except Unit (List OsCall) :=
  if SingleProcessHandler.is_alive os s then
    match s.processHandle with
    | some p => .ok [OsCall.terminateProc p]
    | none => .error ()
  else .ok []

/-- Body of SingleProcessHandler.kill: if is_alive, call kill on the process
handle (an absent handle there would raise). -/
def SingleProcessHandler.kill (os : Nat → Bool) (s : HandlerState) :
    Except Unit (List OsCall) :=
  if SingleProcessHandler.is_alive os s then
    match s.processHandle with
    | some p => .ok [OsCall.killProc p]
    | none => .error ()
  else .ok []

/-- Steps taken by the _run_thread closure of SingleProcessHandler._run_process. -/
inductive RunEvent where
  | procStart
  | procJoin
  | pipeClosed
  | exitCb
deriving DecidableEq

/-- Body of the _run_thread closure in SingleProcessHandler._run_process:
start the process, join it (wait for full exit), run _close, then call the
exit callback.  Returns the state after _close and the ordered events. -/
def SingleProcessHandler.runThread (s : HandlerState) :
    HandlerState × List RunEvent :=
  (SingleProcessHandler.close s,
   [RunEvent.procStart, RunEvent.procJoin, RunEvent.pipeClosed, RunEvent.exitCb])

/-- Actions taken by one iteration of the liveness check loop. -/
inductive LiveAction where
  | sendProbe
  | doStop
  | doKill
deriving DecidableEq

/-- One iteration of the SingleProcessHandler._liveness_check loop body,
entered when the stop event has not been set.  The reply argument models the
outcome of poll(live_check_timeout) followed by recv: none when no answer
arrived within the timeout, some b when the boolean b was received.  Returns
the aliveness value computed, the actions issued, and whether the loop is
exited by break. -/
def SingleProcessHandler.livenessIteration (s : HandlerState)
    (reply : Option Bool) : Bool × List LiveAction × Bool :=
  let probe : Bool × List LiveAction :=
    match s.parentPipe with
    | some c =>
      if c.closed then (false, [])
      else
        match reply with
        | some b => (b, [LiveAction.sendProbe])
        | none => (false, [LiveAction.sendProbe])
    | none => (false, [])
  if probe.1 then (probe.1, probe.2, false)
  else (probe.1, probe.2 ++ [LiveAction.doStop, LiveAction.doKill], true)

/-- Statements executed inside the spawned child process. -/
inductive ChildEvent where
  | createWorker
  | setEnvInstanceIndex (idx : Nat)
  | startListenerThread
  | workerStart
deriving DecidableEq

/-- Success path of _start_service_and_listen_queue, as the ordered sequence
of its statements: create the service via the factory, set the
MULTI_PROCESS_INSTANCE_INDEX environment variable to the instance index,
start the listener thread, call service.start(). -/
def startServiceTrace (idx : Nat) : List ChildEvent :=
  [ChildEvent.createWorker, ChildEvent.setEnvInstanceIndex idx,
   ChildEvent.startListenerThread, ChildEvent.workerStart]

/-- Actions performed by the child listener thread. -/
inductive ListenerAction where
  | sendAliveReply (b : Bool)
  | workerStop
  | pipeClose
deriving DecidableEq

/-- The while loop of _listen_to_pipe.  The input list gives the successive
results of pipe.recv (an error entry models recv raising, for instance on a
broken pipe); an exhausted input also stands for the channel closing, which
makes recv raise EOFError.  alive gives the is_alive flag of the worker when
the k-th entry is processed.  Returns the send actions performed inside the
loop and whether an exception escaped the loop body. -/
def listenLoop (alive : Nat → Bool) :
    List (Except Unit PipeMsg) → Nat → List ListenerAction × Bool
  | [], _ => ([], true)
  | .error _ :: _, _ => ([], true)
  | .ok m :: rest, k =>
    match m with
    | PipeMsg.testAlive =>
      let r := listenLoop alive rest (k + 1)
      (ListenerAction.sendAliveReply (alive k) :: r.1, r.2)
    | PipeMsg.stopMsg => ([], false)
    | _ => listenLoop alive rest (k + 1)

/-- Whole body of _listen_to_pipe: the loop inside try/except Exception: pass,
then the finally block, which always calls inner_service.stop() and
pipe.close().  The except clause swallows every loop exception, so the
function always returns normally. -/
def listenToPipe (alive : Nat → Bool) (input : List (Except Unit PipeMsg)) :
    Except Unit (List ListenerAction) :=
  let r := listenLoop alive input 0
  .ok (r.1 ++ [ListenerAction.workerStop, ListenerAction.pipeClose])

/-- State of a StatefulListIterator: the underlying items, the item count
captured at construction, and the absolute position of the single shared
itertools.cycle iterator created at construction. -/
structure StatefulListIterator (α : Type) where
  items : List α
  item_count : Nat
  cursor : Nat

/-- Constructor of StatefulListIterator: store the list, record its length,
and create the shared cycle iterator at position zero. -/
def StatefulListIterator.make {α : Type} (items : List α) :
    StatefulListIterator α :=
  ⟨items, items.length, 0⟩

/-- Elements produced by itertools.cycle over items at absolute positions
c, c + 1, ..., c + k - 1 (empty when the underlying list is empty). -/
def takeCycle {α : Type} (items : List α) : Nat → Nat → List α
  | _, 0 => []
  | c, k + 1 =>
    match items.get? (c % items.length) with
    | none => []
    | some a => a :: takeCycle items (c + 1) k

/-- The len() of the wrapper: the item count captured at construction. -/
def StatefulListIterator.lenOf {α : Type} (s : StatefulListIterator α) : Nat :=
  s.item_count

/-- Obtaining the iterator islice(self item cycle, item_count) from the
wrapper and consuming k of its elements lazily: at most item_count elements
are produced, each drawn from the shared cycle, whose position advances by
the number of elements actually consumed. -/
def StatefulListIterator.consumePass {α : Type} (s : StatefulListIterator α)
    (k : Nat) : List α × StatefulListIterator α :=
  let k₁ := min k s.item_count
  (takeCycle s.items s.cursor k₁, ⟨s.items, s.item_count, s.cursor + k₁⟩)

/-- The for loop of Event.fire, over the outcome of each registered handler
in registration order: none when the handler returns normally, some e when it
raises e.  Arguments: remaining handler outcomes, continue_after_failure, and
the ret_val accumulator.  Returns the overall result of fire (the aggregate
flag, or the propagated handler exception) paired with the number of handlers
invoked. -/
def fireAux {ε : Type} : List (Option ε) → Bool → Bool → Except ε Bool × Nat
  | [], _, acc => (.ok acc, 0)
  | h :: rest, cont, acc =>
    match h with
    | none =>
      let r := fireAux rest cont acc
      (r.1, r.2 + 1)
    | some e =>
      if cont then
        let r := fireAux rest cont false
        (r.1, r.2 + 1)
      else (.error e, 1)

/-- Event.fire: run the registered handlers in order with ret_val starting at
true. -/
def Event.fire {ε : Type} (handlers : List (Option ε)) (cont : Bool) :
    Except ε Bool × Nat :=
  fireAux handlers cont true

/-- Model of ThreadLocalValue: a threading.local subclass holding one value
per thread.  initArg is the constructor argument; threading.local reruns the
constructor in every thread on that thread's first attribute access, so a
thread with no entry in vals reads initArg.  vals maps thread identifiers to
their materialized value, most recent entry first. -/
structure ThreadLocalValue (γ : Type) where
  initArg : γ
  vals : List (Nat × γ)

/-- Association lookup in the per-thread table, most recent entry first. -/
def lookupT {γ : Type} : List (Nat × γ) → Nat → Option γ
  | [], _ => none
  | (k, v) :: es, t => if t = k then some v else lookupT es t

/-- Reading value in thread t: the thread's entry when present, otherwise the
per-thread constructor run materializes initArg for t and returns it. -/
def ThreadLocalValue.read {γ : Type} (lv : ThreadLocalValue γ) (t : Nat) :
    γ × ThreadLocalValue γ :=
  match lookupT lv.vals t with
  | some v => (v, lv)
  | none => (lv.initArg, ⟨lv.initArg, (t, lv.initArg) :: lv.vals⟩)

/-- Writing value v in thread t. -/
def ThreadLocalValue.write {γ : Type} (lv : ThreadLocalValue γ) (t : Nat)
    (v : γ) : ThreadLocalValue γ :=
  ⟨lv.initArg, (t, v) :: lv.vals⟩

/-- A ThreadLocalMember descriptor: init_value is some d when a default was
declared, none when the Ellipsis sentinel was kept (no default). -/
structure ThreadLocalMember (γ : Type) where
  init_value : Option γ

/-- The private per-instance attribute (_thread_local_name) holding the
ThreadLocalValue, absent until materialized. -/
structure InstanceState (γ : Type) where
  slot : Option (ThreadLocalValue γ)

/-- ThreadLocalMember._get_or_set_lv: fetch the private attribute, creating it
with the given initial value when it is absent. -/
def getOrSetLv {γ : Type} (s : InstanceState γ) (init : γ) :
    ThreadLocalValue γ × InstanceState γ :=
  match s.slot with
  | some lv => (lv, s)
  | none =>
    let lv : ThreadLocalValue γ := ⟨init, []⟩
    (lv, ⟨some lv⟩)

/-- ThreadLocalMember get descriptor executed by thread t: with a declared
default, materialize the slot lazily and read; without one, raise
AttributeError when the slot is absent, else read. -/
def ThreadLocalMember.getAttr {γ : Type} (m : ThreadLocalMember γ)
    (s : InstanceState γ) (t : Nat) : Except Unit (γ × InstanceState γ) :=
  match m.init_value with
  | some d =>
    let r := getOrSetLv s d
    let rd := r.1.read t
    .ok (rd.1, ⟨some rd.2⟩)
  | none =>
    match s.slot with
    | none => .error ()
    | some lv =>
      let rd := lv.read t
      .ok (rd.1, ⟨some rd.2⟩)

/-- ThreadLocalMember set descriptor executed by thread t: the initial value
for slot creation is the declared default when present, else the assigned
value; then the value for thread t is written. -/
def ThreadLocalMember.setAttr {γ : Type} (m : ThreadLocalMember γ)
    (s : InstanceState γ) (t : Nat) (v : γ) : InstanceState γ :=
  let init : γ :=
    match m.init_value with
    | none => v
    | some d => d
  let r := getOrSetLv s init
  ⟨some (r.1.write t v)⟩

/-- One attribute operation performed by some thread. -/
inductive TLOp (γ : Type) where
  | rd (t : Nat)
  | wr (t : Nat) (v : γ)

/-- Apply one operation to the instance state (a read that raises
AttributeError leaves the state unchanged). -/
def applyOp {γ : Type} (m : ThreadLocalMember γ) (s : InstanceState γ) :
    TLOp γ → InstanceState γ
  | .rd t =>
    match m.getAttr s t with
    | .ok r => r.2
    | .error _ => s
  | .wr t v => m.setAttr s t v

/-- Run a sequence of operations from a state. -/
def runOps {γ : Type} (m : ThreadLocalMember γ) (ops : List (TLOp γ))
    (s : InstanceState γ) : InstanceState γ :=
  ops.foldl (applyOp m) s

/-- The threads performing one operation as writers. -/
def opWriters {γ : Type} : TLOp γ → List Nat
  | .wr t _ => [t]
  | .rd _ => []

/-- The threads that perform a write somewhere in a list of operations. -/
def writersOf {γ : Type} : List (TLOp γ) → List Nat
  | [] => []
  | op :: ops => opWriters op ++ writersOf ops

/-- A thread-local value is anchored at a for writer set ws when its
per-thread constructor argument is a and every materialized entry either
belongs to a thread of ws or holds a. -/
def GoodLv {γ : Type} (a : γ) (ws : List Nat) (lv : ThreadLocalValue γ) :
    Prop :=
  lv.initArg = a ∧ ∀ t v, lookupT lv.vals t = some v → t ∈ ws ∨ v = a

/-- Instance state invariant: an absent slot is allowed only when the
descriptor declares a as default; a present slot is anchored at a for the
writer set ws. -/
def GoodState {γ : Type} (a : γ) (m : ThreadLocalMember γ) (ws : List Nat)
    (s : InstanceState γ) : Prop :=
  (s.slot = none → m.init_value = some a) ∧
  ∀ lv, s.slot = some lv → GoodLv a ws lv

/- ---------------------------------------------------------------- theorems -/

/-- C1: in every liveness check iteration, when the worker is found not alive
(the parent endpoint is absent, or closed, or no reply arrives within the
timeout, or a false reply arrives) the monitor issues stop immediately
followed by kill and exits the loop; and when a reply does arrive over an
open endpoint, the aliveness value used for the decision is exactly the
received boolean. -/
theorem liveness_iteration_escalates (s : HandlerState) (reply : Option Bool) :
    (∀ c b, s.parentPipe = some c → c.closed = false → reply = some b →
      (SingleProcessHandler.livenessIteration s reply).1 = b) ∧
    (s.parentPipe = none →
      (SingleProcessHandler.livenessIteration s reply).1 = false) ∧
    (∀ c, s.parentPipe = some c → c.closed = true →
      (SingleProcessHandler.livenessIteration s reply).1 = false) ∧
    (∀ c, s.parentPipe = some c → c.closed = false → reply = none →
      (SingleProcessHandler.livenessIteration s reply).1 = false) ∧
    ((SingleProcessHandler.livenessIteration s reply).1 = false →
      ∃ pre, (SingleProcessHandler.livenessIteration s reply).2.1
          = pre ++ [LiveAction.doStop, LiveAction.doKill] ∧
        (SingleProcessHandler.livenessIteration s reply).2.2 = true) := by
  refine ⟨?_, ?_, ?_, ?_, ?_⟩
  · intro c b hp hc hr
    cases b <;>
      simp [SingleProcessHandler.livenessIteration, hp, hc, hr]
  · intro hp
    simp [SingleProcessHandler.livenessIteration, hp]
  · intro c hp hc
    simp [SingleProcessHandler.livenessIteration, hp, hc]
  · intro c hp hc hr
    simp [SingleProcessHandler.livenessIteration, hp, hc, hr]
  · intro hdead
    cases hp : s.parentPipe with
    | none =>
      refine ⟨[], ?_, ?_⟩ <;>
        simp [SingleProcessHandler.livenessIteration, hp]
    | some c =>
      cases hc : c.closed with
      | true =>
        refine ⟨[], ?_, ?_⟩ <;>
          simp [SingleProcessHandler.livenessIteration, hp, hc]
      | false =>
        cases hr : reply with
        | none =>
          refine ⟨[LiveAction.sendProbe], ?_, ?_⟩ <;>
            simp [SingleProcessHandler.livenessIteration, hp, hc, hr]
        | some b =>
          cases b with
          | false =>
            refine ⟨[LiveAction.sendProbe], ?_, ?_⟩ <;>
              simp [SingleProcessHandler.livenessIteration, hp, hc, hr]
          | true =>
            exfalso
            have : (SingleProcessHandler.livenessIteration s reply).1 = true := by
              simp [SingleProcessHandler.livenessIteration, hp, hc, hr]
            rw [this] at hdead
            exact Bool.true_eq_false.mp hdead

/-- C1 witness: with an open parent endpoint and a received false reply, the
aliveness used is the received boolean false and the iteration ends in stop
immediately followed by kill with the loop exited. -/
theorem liveness_iteration_escalates_witness :
    (SingleProcessHandler.livenessIteration ⟨false, some ⟨false⟩, some 1⟩
        (some false)).1 = false ∧
    ∃ pre, (SingleProcessHandler.livenessIteration ⟨false, some ⟨false⟩, some 1⟩
        (some false)).2.1 = pre ++ [LiveAction.doStop, LiveAction.doKill] ∧
      (SingleProcessHandler.livenessIteration ⟨false, some ⟨false⟩, some 1⟩
        (some false)).2.2 = true := by
  have h := liveness_iteration_escalates ⟨false, some ⟨false⟩, some 1⟩ (some false)
  have h₁ := h.1 ⟨false⟩ false rfl rfl rfl
  exact ⟨h₁, h.2.2.2.2 h₁⟩

/-- C2 counterexample: running the exit wait body from a state holding a
process handle leaves that handle present; the handle does not become absent
as the claim states. -/
theorem run_thread_keeps_process_handle :
    (SingleProcessHandler.runThread ⟨false, some ⟨false⟩, some 1⟩).1.processHandle
      = some 1 ∧
    ¬ (SingleProcessHandler.runThread
        ⟨false, some ⟨false⟩, some 1⟩).1.processHandle = none := by
  decide

/-- C2 amended: when the exit wait thread observes that the child process has
fully exited, it closes the parent channel endpoint and clears it (the
endpoint becomes absent), leaves the process handle unchanged (it is not
cleared), and only after the close does it invoke the exit callback, which
appears exactly once, last in the ordered event sequence of the run. -/
theorem run_thread_event_order (s : HandlerState) :
    (SingleProcessHandler.runThread s).1.parentPipe = none ∧
    (SingleProcessHandler.runThread s).1.processHandle = s.processHandle ∧
    (SingleProcessHandler.runThread s).2
      = [RunEvent.procStart, RunEvent.procJoin, RunEvent.pipeClosed,
         RunEvent.exitCb] := by
  refine ⟨?_, ?_, rfl⟩ <;> cases hp : s.parentPipe <;>
    simp [SingleProcessHandler.runThread, SingleProcessHandler.close, hp]

/-- C3: stop sets the intentional stop flag and, when the channel endpoint is
present, sends STOP; when the endpoint is absent (it was cleared when the
channel was closed), nothing is sent; calling stop twice, or calling it after
the close that follows child exit, raises no error. -/
theorem stop_idempotent_safe (s : HandlerState) (h : s.pipeOpen) :
    (∃ s₁ ms₁, SingleProcessHandler.stop s = .ok (s₁, ms₁) ∧
      s₁.stopWasCalled = true ∧
      (∀ c, s.parentPipe = some c → ms₁ = [PipeMsg.stopMsg]) ∧
      (s.parentPipe = none → ms₁ = []) ∧
      ∃ s₂ ms₂, SingleProcessHandler.stop s₁ = .ok (s₂, ms₂)) ∧
    (∃ s₃, SingleProcessHandler.stop (SingleProcessHandler.close s)
        = .ok (s₃, []) ∧ s₃.stopWasCalled = true) := by
  cases hp : s.parentPipe with
  | none =>
    refine ⟨⟨⟨true, s.parentPipe, s.processHandle⟩, [], ?_, rfl, ?_, ?_, ?_⟩, ?_⟩
    · simp [SingleProcessHandler.stop, hp]
    · intro c hc
      exact Option.noConfusion hc
    · intro _
      rfl
    · refine ⟨⟨true, s.parentPipe, s.processHandle⟩, [], ?_⟩
      simp [SingleProcessHandler.stop, hp]
    · refine ⟨⟨true, none, s.processHandle⟩, ?_, rfl⟩
      simp [SingleProcessHandler.close, SingleProcessHandler.stop, hp]
  | some c =>
    have hc : c.closed = false := h c hp
    refine ⟨⟨⟨true, s.parentPipe, s.processHandle⟩, [PipeMsg.stopMsg], ?_, rfl,
        ?_, ?_, ?_⟩, ?_⟩
    · simp [SingleProcessHandler.stop, hp, Conn.send, hc]
    · intro _ _
      rfl
    · intro hn
      exact Option.noConfusion hn
    · refine ⟨⟨true, s.parentPipe, s.processHandle⟩, [PipeMsg.stopMsg], ?_⟩
      simp [SingleProcessHandler.stop, hp, Conn.send, hc]
    · refine ⟨⟨true, none, s.processHandle⟩, ?_, rfl⟩
      simp [SingleProcessHandler.close, SingleProcessHandler.stop, hp]

/-- C3 witness: from a running state with an open parent endpoint, stop
succeeds and sends STOP, a second stop succeeds, and stop after close
succeeds and sends nothing. -/
theorem stop_idempotent_safe_witness :
    HandlerState.pipeOpen ⟨false, some ⟨false⟩, some 1⟩ ∧
    ((∃ s₁ ms₁, SingleProcessHandler.stop ⟨false, some ⟨false⟩, some 1⟩
        = .ok (s₁, ms₁) ∧
      s₁.stopWasCalled = true ∧
      (∀ c, (⟨false, some ⟨false⟩, some 1⟩ : HandlerState).parentPipe = some c →
        ms₁ = [PipeMsg.stopMsg]) ∧
      ((⟨false, some ⟨false⟩, some 1⟩ : HandlerState).parentPipe = none →
        ms₁ = []) ∧
      ∃ s₂ ms₂, SingleProcessHandler.stop s₁ = .ok (s₂, ms₂)) ∧
    (∃ s₃, SingleProcessHandler.stop
        (SingleProcessHandler.close ⟨false, some ⟨false⟩, some 1⟩)
        = .ok (s₃, []) ∧ s₃.stopWasCalled = true)) := by
  have hopen : HandlerState.pipeOpen ⟨false, some ⟨false⟩, some 1⟩ := by
    intro c hc
    cases hc
    rfl
  exact ⟨hopen, stop_idempotent_safe ⟨false, some ⟨false⟩, some 1⟩ hopen⟩

/-- C4 counterexample: in the child entry trace with instance index 0, the
worker construction sits at position 0 and the environment variable
assignment at position 1, so the variable is not set before the worker is
constructed. -/
theorem child_env_after_construction :
    (startServiceTrace 0).get? 0 = some ChildEvent.createWorker ∧
    (startServiceTrace 0).get? 1 = some (ChildEvent.setEnvInstanceIndex 0) ∧
    ¬ ∃ i, i < 1 ∧ (startServiceTrace 0).get? i
        = some (ChildEvent.setEnvInstanceIndex 0) := by
  refine ⟨rfl, rfl, ?_⟩
  rintro ⟨i, hi, hget⟩
  interval_cases i
  exact ChildEvent.noConfusion (Option.some.inj hget)

/-- C4 amended: inside the child process, the instance index environment
variable is set to the supervisor assigned integer index immediately after
the worker is constructed via the factory, before the listener thread is
started and before the worker is run. -/
theorem child_env_position (idx : Nat) :
    (startServiceTrace idx).get? 0 = some ChildEvent.createWorker ∧
    (startServiceTrace idx).get? 1 = some (ChildEvent.setEnvInstanceIndex idx) ∧
    (startServiceTrace idx).get? 2 = some ChildEvent.startListenerThread ∧
    (startServiceTrace idx).get? 3 = some ChildEvent.workerStart ∧
    (startServiceTrace idx).length = 4 :=
  ⟨rfl, rfl, rfl, rfl, rfl⟩

/-- Helper: every action emitted inside the listener loop proper is a send of
an aliveness reply. -/
theorem listenLoop_actions (alive : Nat → Bool) :
    ∀ (input : List (Except Unit PipeMsg)) (k : Nat),
      ∀ a ∈ (listenLoop alive input k).1,
        ∃ b, a = ListenerAction.sendAliveReply b := by
  intro input
  induction input with
  | nil =>
    intro k a ha
    simp [listenLoop] at ha
  | cons x rest ih =>
    intro k a ha
    cases x with
    | error e =>
      simp [listenLoop] at ha
    | ok m =>
      cases m with
      | stopMsg =>
        simp [listenLoop] at ha
      | testAlive =>
        simp only [listenLoop, List.mem_cons] at ha
        rcases ha with ha | ha
        · exact ⟨alive k, ha⟩
        · exact ih (k + 1) a ha
      | aliveReply b =>
        simp only [listenLoop] at ha
        exact ih (k + 1) a ha
      | otherMsg =>
        simp only [listenLoop] at ha
        exact ih (k + 1) a ha

/-- C5: whatever the received stream and however the loop ends, the listener
body returns normally (the except clause contains every loop exception, so
nothing propagates to the worker main line) and its action trace is reply
sends followed by exactly one final worker stop and child endpoint close. -/
theorem listen_finally_cleanup (alive : Nat → Bool)
    (input : List (Except Unit PipeMsg)) :
    ∃ pre, listenToPipe alive input
        = .ok (pre ++ [ListenerAction.workerStop, ListenerAction.pipeClose]) ∧
      ∀ a ∈ pre, ∃ b, a = ListenerAction.sendAliveReply b := by
  exact ⟨(listenLoop alive input 0).1, rfl, listenLoop_actions alive input 0⟩

/-- C5 witness: a concrete stream whose processing raises (error entry) still
produces the final worker stop and endpoint close with no escaping error. -/
theorem listen_finally_cleanup_witness :
    ∃ pre, listenToPipe (fun _ => true)
        [.ok PipeMsg.testAlive, .error ()]
        = .ok (pre ++ [ListenerAction.workerStop, ListenerAction.pipeClose]) ∧
      ∀ a ∈ pre, ∃ b, a = ListenerAction.sendAliveReply b :=
  listen_finally_cleanup (fun _ => true) [.ok PipeMsg.testAlive, .error ()]

/-- C6: in the listener loop a TEST_ALIVE message is answered with the current
worker aliveness flag and the loop continues, a STOP message ends the loop,
and any other payload is ignored and the loop continues. -/
theorem listen_message_dispatch (alive : Nat → Bool)
    (rest : List (Except Unit PipeMsg)) (k : Nat) :
    listenLoop alive (.ok PipeMsg.testAlive :: rest) k
      = (ListenerAction.sendAliveReply (alive k)
          :: (listenLoop alive rest (k + 1)).1,
         (listenLoop alive rest (k + 1)).2) ∧
    listenLoop alive (.ok PipeMsg.stopMsg :: rest) k = ([], false) ∧
    ∀ m, m ≠ PipeMsg.testAlive → m ≠ PipeMsg.stopMsg →
      listenLoop alive (.ok m :: rest) k = listenLoop alive rest (k + 1) := by
  refine ⟨rfl, rfl, ?_⟩
  intro m h₁ h₂
  cases m with
  | stopMsg => exact absurd rfl h₂
  | testAlive => exact absurd rfl h₁
  | aliveReply b => rfl
  | otherMsg => rfl

/-- C6 witness: an unrecognized payload is skipped, continuing the loop on
the remaining input. -/
theorem listen_message_dispatch_witness :
    listenLoop (fun _ => false) [.ok PipeMsg.otherMsg] 0
      = listenLoop (fun _ => false) [] 1 :=
  (listen_message_dispatch (fun _ => false) [] 0).2.2 PipeMsg.otherMsg
    (by decide) (by decide)

/-- C7: terminate and kill act on the OS process handle only when is_alive is
true; when is_alive is false, in particular when no process was ever started
and the handle is absent, they perform no action and raise no error. -/
theorem terminate_kill_noop (os : Nat → Bool) (s : HandlerState) :
    (SingleProcessHandler.is_alive os s = false →
      SingleProcessHandler.terminate os s = .ok [] ∧
      SingleProcessHandler.kill os s = .ok []) ∧
    (s.processHandle = none → SingleProcessHandler.is_alive os s = false) ∧
    (∀ p, s.processHandle = some p →
      SingleProcessHandler.is_alive os s = true →
      SingleProcessHandler.terminate os s = .ok [OsCall.terminateProc p] ∧
      SingleProcessHandler.kill os s = .ok [OsCall.killProc p]) := by
  refine ⟨?_, ?_, ?_⟩
  · intro hdead
    constructor <;>
      simp [SingleProcessHandler.terminate, SingleProcessHandler.kill, hdead]
  · intro hp
    simp [SingleProcessHandler.is_alive, hp]
  · intro p hp halive
    constructor <;>
      simp [SingleProcessHandler.terminate, SingleProcessHandler.kill,
        halive, hp]

/-- C7 witness: with no process ever started, terminate and kill perform no
action and raise no error. -/
theorem terminate_kill_noop_witness :
    SingleProcessHandler.terminate (fun _ => false) ⟨false, none, none⟩
      = .ok [] ∧
    SingleProcessHandler.kill (fun _ => false) ⟨false, none, none⟩ = .ok [] :=
  (terminate_kill_noop (fun _ => false) ⟨false, none, none⟩).1 rfl

/-- Helper: advancing the cycle position by a full list length leaves the
produced elements unchanged. -/
theorem takeCycle_add_length {α : Type} (items : List α) :
    ∀ (k c : Nat), takeCycle items (c + items.length) k = takeCycle items c k := by
  intro k
  induction k with
  | zero => intro c; rfl
  | succ k ih =>
    intro c
    have hmod : (c + items.length) % items.length = c % items.length :=
      Nat.add_mod_right c items.length
    have hstep : c + items.length + 1 = c + 1 + items.length := by omega
    simp only [takeCycle, hmod, hstep, ih (c + 1)]

/-- Helper: the cycle position only matters modulo whole laps. -/
theorem takeCycle_mul_length {α : Type} (items : List α) (q k : Nat) :
    takeCycle items (q * items.length) k = takeCycle items 0 k := by
  induction q with
  | zero => rw [Nat.zero_mul]
  | succ q ih =>
    have hq : (q + 1) * items.length = q * items.length + items.length :=
      Nat.succ_mul q items.length
    rw [hq, takeCycle_add_length, ih]

/-- Helper: within the first lap, the cycle produces a contiguous slice of
the underlying list. -/
theorem takeCycle_eq_drop_take {α : Type} (items : List α) :
    ∀ (k c : Nat), c + k ≤ items.length →
      takeCycle items c k = (items.drop c).take k := by
  intro k
  induction k with
  | zero => intro c _; rfl
  | succ k ih =>
    intro c h
    have hc : c < items.length := by omega
    have hget : items.get? c = some (items.get ⟨c, hc⟩) := List.get?_eq_get hc
    have hmod : c % items.length = c := Nat.mod_eq_of_lt hc
    have hdrop : items.drop c = items.get ⟨c, hc⟩ :: items.drop (c + 1) := by
      rw [List.drop_eq_getElem_cons hc, List.get_eq_getElem]
    simp only [takeCycle, hmod, hget, hdrop, List.take_cons]
    exact congrArg _ (ih (c + 1) (by omega))

/-- Helper: a full first lap of the cycle is the underlying list itself. -/
theorem takeCycle_full_lap {α : Type} (items : List α) :
    takeCycle items 0 items.length = items := by
  rw [takeCycle_eq_drop_take items items.length 0 (by omega)]
  simp

/-- C8 counterexample: with underlying items [1, 2], consuming one element of
a first iterator and then fully consuming a freshly obtained second iterator
yields [2, 1], not the original order [1, 2]: a later pass does not restart
at the first element. -/
theorem stateful_iterator_shared_cursor :
    (((StatefulListIterator.make [1, 2]).consumePass 1).2.consumePass 2).1
      = [2, 1] ∧
    ¬ (((StatefulListIterator.make [1, 2]).consumePass 1).2.consumePass 2).1
      = [1, 2] := by
  decide

/-- C8 amended: len() of the wrapper equals the number of underlying items;
each call to the iteration operation produces a finite pass of at most len()
elements drawn from the single shared cyclic walk of the underlying list,
advancing its cursor by the number of elements consumed; a full pass begun
with the cursor at a whole number of laps (the first pass, or any pass
following only fully consumed passes) yields the underlying items in their
original order starting from the first element. -/
theorem stateful_iterator_passes {α : Type} (items : List α) (q k : Nat) :
    (StatefulListIterator.make items).lenOf = items.length ∧
    ((⟨items, items.length, q * items.length⟩ :
        StatefulListIterator α).consumePass items.length).1 = items ∧
    ((⟨items, items.length, q * items.length⟩ :
        StatefulListIterator α).consumePass items.length).2.cursor
      = (q + 1) * items.length ∧
    (∀ s : StatefulListIterator α,
      (s.consumePass k).2.cursor = s.cursor + min k s.item_count ∧
      (s.consumePass k).1 = takeCycle s.items s.cursor (min k s.item_count)) := by
  refine ⟨rfl, ?_, ?_, fun s => ⟨rfl, rfl⟩⟩
  · show takeCycle items (q * items.length) (min items.length items.length)
      = items
    rw [Nat.min_self, takeCycle_mul_length, takeCycle_full_lap]
  · show q * items.length + min items.length items.length
      = (q + 1) * items.length
    rw [Nat.min_self, Nat.succ_mul]

/-- Helper: with continue_after_failure, the fire loop invokes every handler
and the aggregate flag collects whether any handler raised. -/
theorem fireAux_collect {ε : Type} :
    ∀ (hs : List (Option ε)) (acc : Bool),
      fireAux hs true acc = (.ok (acc && hs.all Option.isNone), hs.length) := by
  intro hs
  induction hs with
  | nil => intro acc; simp [fireAux]
  | cons h rest ih =>
    intro acc
    cases h with
    | none => simp [fireAux, ih acc, Option.isNone]
    | some e => simp [fireAux, ih false, Option.isNone]

/-- Helper: without continue_after_failure, a run over handlers that all
return normally invokes them all and keeps the accumulator. -/
theorem fireAux_all_ok {ε : Type} :
    ∀ (hs : List (Option ε)) (acc : Bool), (∀ x ∈ hs, x = none) →
      fireAux hs false acc = (.ok acc, hs.length) := by
  intro hs
  induction hs with
  | nil => intro acc _; rfl
  | cons h rest ih =>
    intro acc hall
    have hh : h = none := hall h (List.mem_cons_self h rest)
    subst hh
    simp [fireAux, ih acc (fun y hy => hall y (List.mem_cons_of_mem _ hy))]

/-- Helper: without continue_after_failure, the first raising handler aborts
the loop, propagating its exception after invoking only the handlers up to
and including it. -/
theorem fireAux_abort {ε : Type} :
    ∀ (pre : List (Option ε)) (e : ε) (rest : List (Option ε)) (acc : Bool),
      (∀ x ∈ pre, x = none) →
      fireAux (pre ++ some e :: rest) false acc = (.error e, pre.length + 1) := by
  intro pre
  induction pre with
  | nil => intro e rest acc _; rfl
  | cons x xs ih =>
    intro e rest acc hall
    have hx : x = none := hall x (List.mem_cons_self x xs)
    subst hx
    simp [fireAux,
      ih e rest acc (fun y hy => hall y (List.mem_cons_of_mem _ hy))]

/-- C9: fire invokes the handlers synchronously in registration order; with
continue_after_failure it invokes them all and returns an aggregate flag that
is true exactly when no handler raised; without it, when every handler
returns normally all are invoked and the flag is true, while the first
raising handler propagates its exception out of fire with none of the
remaining handlers invoked. -/
theorem event_fire_policy {ε : Type} (hs pre rest : List (Option ε)) (e : ε) :
    Event.fire hs true = (.ok (hs.all Option.isNone), hs.length) ∧
    ((∀ x ∈ hs, x = none) → Event.fire hs false = (.ok true, hs.length)) ∧
    ((∀ x ∈ pre, x = none) →
      Event.fire (pre ++ some e :: rest) false = (.error e, pre.length + 1)) := by
  refine ⟨?_, ?_, ?_⟩
  · have h := fireAux_collect hs true
    simpa [Event.fire] using h
  · intro hall
    exact fireAux_all_ok hs true hall
  · intro hall
    exact fireAux_abort pre e rest true hall

/-- C9 witness: concrete runs of fire under both failure policies. -/
theorem event_fire_policy_witness :
    Event.fire [(none : Option Nat), none] true = (.ok true, 2) ∧
    Event.fire [(none : Option Nat), none] false = (.ok true, 2) ∧
    Event.fire ([none] ++ some 5 :: ([] : List (Option Nat))) false
      = (.error 5, 2) := by
  have h := event_fire_policy [(none : Option Nat), none] [none] [] 5
  exact ⟨h.1, h.2.1 (by decide), h.2.2 (by decide)⟩

/-- Helper: writer collection distributes over operation list append. -/
theorem writersOf_append {γ : Type} (l₁ l₂ : List (TLOp γ)) :
    writersOf (l₁ ++ l₂) = writersOf l₁ ++ writersOf l₂ := by
  induction l₁ with
  | nil => rfl
  | cons op ops ih => simp [writersOf, ih, List.append_assoc]

/-- Helper: anchoring is monotone in the writer set. -/
theorem goodLv_mono {γ : Type} (a : γ) (ws ws₂ : List Nat)
    (lv : ThreadLocalValue γ) (hsub : ∀ x ∈ ws, x ∈ ws₂)
    (h : GoodLv a ws lv) : GoodLv a ws₂ lv := by
  obtain ⟨h₁, h₂⟩ := h
  refine ⟨h₁, fun t v hl => ?_⟩
  rcases h₂ t v hl with ht | hv
  · exact Or.inl (hsub t ht)
  · exact Or.inr hv

/-- Helper: a per-thread read preserves anchoring, and a thread that never
wrote reads the anchor value. -/
theorem read_goodLv {γ : Type} (a : γ) (ws : List Nat)
    (lv : ThreadLocalValue γ) (t : Nat) (h : GoodLv a ws lv) :
    GoodLv a ws (lv.read t).2 ∧ (t ∉ ws → (lv.read t).1 = a) := by
  obtain ⟨hinit, hvals⟩ := h
  cases hl : lookupT lv.vals t with
  | some v =>
    refine ⟨?_, ?_⟩
    · simp only [ThreadLocalValue.read, hl]
      exact ⟨hinit, hvals⟩
    · intro ht
      simp only [ThreadLocalValue.read, hl]
      rcases hvals t v hl with h₁ | h₁
      · exact absurd h₁ ht
      · exact h₁
  | none =>
    refine ⟨⟨?_, ?_⟩, ?_⟩
    · simp only [ThreadLocalValue.read, hl]
      exact hinit
    · intro t₂ v₂ hl₂
      simp only [ThreadLocalValue.read, hl] at hl₂
      by_cases hte : t₂ = t
      · subst hte
        have hv : some lv.initArg = some v₂ := by
          rw [← hl₂]
          simp [lookupT]
        have hv₂ : lv.initArg = v₂ := Option.some.inj hv
        exact Or.inr (by rw [← hv₂]; exact hinit)
      · simp only [lookupT, if_neg hte] at hl₂
        exact hvals t₂ v₂ hl₂
    · intro _
      simp only [ThreadLocalValue.read, hl]
      exact hinit

/-- Helper: a per-thread write preserves anchoring once its thread joins the
writer set. -/
theorem write_goodLv {γ : Type} (a : γ) (ws : List Nat)
    (lv : ThreadLocalValue γ) (t : Nat) (v : γ) (h : GoodLv a ws lv) :
    GoodLv a (ws ++ [t]) (lv.write t v) := by
  obtain ⟨hinit, hvals⟩ := h
  refine ⟨hinit, fun t₂ v₂ hl => ?_⟩
  simp only [ThreadLocalValue.write] at hl
  by_cases hte : t₂ = t
  · subst hte
    exact Or.inl (List.mem_append_right ws (List.mem_singleton.mpr rfl))
  · simp only [lookupT, if_neg hte] at hl
    rcases hvals t₂ v₂ hl with h₁ | h₁
    · exact Or.inl (List.mem_append_left _ h₁)
    · exact Or.inr h₁

/-- Helper: one descriptor operation preserves the instance state invariant,
extending the writer set by the threads that wrote. -/
theorem applyOp_good {γ : Type} (a : γ) (m : ThreadLocalMember γ)
    (ws : List Nat) (s : InstanceState γ) (op : TLOp γ)
    (h : GoodState a m ws s) :
    GoodState a m (ws ++ opWriters op) (applyOp m s op) := by
  obtain ⟨hnone, hsome⟩ := h
  cases op with
  | rd t =>
    simp only [opWriters, List.append_nil]
    cases hm : m.init_value with
    | none =>
      cases hs : s.slot with
      | none =>
        have happ : applyOp m s (TLOp.rd t) = s := by
          simp [applyOp, ThreadLocalMember.getAttr, hm, hs]
        rw [happ]
        exact ⟨hnone, hsome⟩
      | some lv =>
        have hread := read_goodLv a ws lv t (hsome lv hs)
        have happ : applyOp m s (TLOp.rd t) = ⟨some (lv.read t).2⟩ := by
          simp [applyOp, ThreadLocalMember.getAttr, hm, hs]
        rw [happ]
        refine ⟨fun hc => Option.noConfusion hc, fun lv₂ hlv₂ => ?_⟩
        obtain rfl := Option.some.inj hlv₂
        exact hread.1
    | some d =>
      cases hs : s.slot with
      | none =>
        have had : d = a := by
          have h₂ := hnone hs
          rw [hm] at h₂
          exact Option.some.inj h₂
        subst had
        have happ : applyOp m s (TLOp.rd t) = ⟨some ⟨d, [(t, d)]⟩⟩ := by
          simp [applyOp, ThreadLocalMember.getAttr, hm, hs, getOrSetLv,
            ThreadLocalValue.read, lookupT]
        rw [happ]
        refine ⟨fun hc => Option.noConfusion hc, fun lv₂ hlv₂ => ?_⟩
        obtain rfl := Option.some.inj hlv₂
        refine ⟨rfl, fun t₂ v₂ hl => ?_⟩
        by_cases hte : t₂ = t
        · subst hte
          have hv : some d = some v₂ := by
            rw [← hl]
            simp [lookupT]
          exact Or.inr (Option.some.inj hv).symm
        · simp only [lookupT, if_neg hte] at hl
          exact Option.noConfusion hl
      | some lv =>
        have hread := read_goodLv a ws lv t (hsome lv hs)
        have happ : applyOp m s (TLOp.rd t) = ⟨some (lv.read t).2⟩ := by
          simp [applyOp, ThreadLocalMember.getAttr, hm, hs, getOrSetLv]
        rw [happ]
        refine ⟨fun hc => Option.noConfusion hc, fun lv₂ hlv₂ => ?_⟩
        obtain rfl := Option.some.inj hlv₂
        exact hread.1
  | wr t v =>
    cases hs : s.slot with
    | some lv =>
      have happ : applyOp m s (TLOp.wr t v) = ⟨some (lv.write t v)⟩ := by
        simp [applyOp, ThreadLocalMember.setAttr, getOrSetLv, hs]
      rw [happ]
      refine ⟨fun hc => Option.noConfusion hc, fun lv₂ hlv₂ => ?_⟩
      obtain rfl := Option.some.inj hlv₂
      exact write_goodLv a ws lv t v (hsome lv hs)
    | none =>
      have hma : m.init_value = some a := hnone hs
      have happ : applyOp m s (TLOp.wr t v) = ⟨some ⟨a, [(t, v)]⟩⟩ := by
        simp [applyOp, ThreadLocalMember.setAttr, hma, getOrSetLv, hs,
          ThreadLocalValue.write]
      rw [happ]
      refine ⟨fun hc => Option.noConfusion hc, fun lv₂ hlv₂ => ?_⟩
      obtain rfl := Option.some.inj hlv₂
      refine ⟨rfl, fun t₂ v₂ hl => ?_⟩
      by_cases hte : t₂ = t
      · subst hte
        exact Or.inl (List.mem_append_right ws (by simp [opWriters]))
      · simp only [lookupT, if_neg hte] at hl
        exact Option.noConfusion hl

/-- Helper: running operations preserves the instance state invariant. -/
theorem runOps_good {γ : Type} (a : γ) (m : ThreadLocalMember γ) :
    ∀ (ops : List (TLOp γ)) (ws : List Nat) (s : InstanceState γ),
      GoodState a m ws s →
      GoodState a m (ws ++ writersOf ops) (runOps m ops s) := by
  intro ops
  induction ops with
  | nil =>
    intro ws s h
    simpa [runOps, writersOf] using h
  | cons op ops ih =>
    intro ws s h
    have h₂ := ih (ws ++ opWriters op) (applyOp m s op)
      (applyOp_good a m ws s op h)
    have hw : ws ++ writersOf (op :: ops)
        = (ws ++ opWriters op) ++ writersOf ops := by
      simp [writersOf, List.append_assoc]
    rw [hw]
    exact h₂

/-- Helper: running operations splits over list append. -/
theorem runOps_append {γ : Type} (m : ThreadLocalMember γ)
    (l₁ l₂ : List (TLOp γ)) (s : InstanceState γ) :
    runOps m (l₁ ++ l₂) s = runOps m l₂ (runOps m l₁ s) := by
  simp [runOps, List.foldl_append]

/-- Helper: a materialized slot stays materialized under every operation. -/
theorem applyOp_slot_some {γ : Type} (m : ThreadLocalMember γ)
    (s : InstanceState γ) (op : TLOp γ) (h : s.slot ≠ none) :
    (applyOp m s op).slot ≠ none := by
  cases op with
  | wr t v => simp [applyOp, ThreadLocalMember.setAttr]
  | rd t =>
    cases hs : s.slot with
    | none => exact absurd hs h
    | some lv =>
      cases hm : m.init_value with
      | some d => simp [applyOp, ThreadLocalMember.getAttr, hm, getOrSetLv, hs]
      | none => simp [applyOp, ThreadLocalMember.getAttr, hm, hs]

/-- Helper: a materialized slot stays materialized under any run. -/
theorem runOps_slot_some {γ : Type} (m : ThreadLocalMember γ) :
    ∀ (ops : List (TLOp γ)) (s : InstanceState γ), s.slot ≠ none →
      (runOps m ops s).slot ≠ none := by
  intro ops
  induction ops with
  | nil => intro s h; exact h
  | cons op ops ih =>
    intro s h
    exact ih _ (applyOp_slot_some m s op h)

/-- Helper: with no declared default, reads alone never materialize the slot
(they raise AttributeError and leave the fresh instance unchanged). -/
theorem runOps_reads_fresh {γ : Type} :
    ∀ (pre : List (TLOp γ)), (∀ op ∈ pre, opWriters op = ([] : List Nat)) →
      runOps (⟨none⟩ : ThreadLocalMember γ) pre ⟨none⟩ = ⟨none⟩ := by
  intro pre
  induction pre with
  | nil => intro _; rfl
  | cons op ops ih =>
    intro hall
    cases op with
    | rd t =>
      have hr : runOps (⟨none⟩ : ThreadLocalMember γ) (TLOp.rd t :: ops) ⟨none⟩
          = runOps ⟨none⟩ ops ⟨none⟩ := rfl
      rw [hr]
      exact ih (fun y hy => hall y (List.mem_cons_of_mem _ hy))
    | wr t v =>
      have hw := hall (TLOp.wr t v) (List.mem_cons_self _ _)
      simp [opWriters] at hw

/-- Helper: a read by a thread outside the writer set yields the anchor. -/
theorem getAttr_good {γ : Type} (a : γ) (m : ThreadLocalMember γ)
    (ws : List Nat) (s : InstanceState γ) (t : Nat) (h : GoodState a m ws s)
    (ht : t ∉ ws) (hdef : m.init_value = some a ∨ s.slot ≠ none) :
    ∃ s₂, m.getAttr s t = .ok (a, s₂) := by
  obtain ⟨hnone, hsome⟩ := h
  cases hs : s.slot with
  | none =>
    have hma : m.init_value = some a := by
      rcases hdef with h₁ | h₁
      · exact h₁
      · exact absurd hs h₁
    refine ⟨⟨some ⟨a, [(t, a)]⟩⟩, ?_⟩
    simp [ThreadLocalMember.getAttr, hma, getOrSetLv, hs,
      ThreadLocalValue.read, lookupT]
  | some lv =>
    have hread := read_goodLv a ws lv t (hsome lv hs)
    have hv : (lv.read t).1 = a := hread.2 ht
    cases hm : m.init_value with
    | some d =>
      refine ⟨⟨some (lv.read t).2⟩, ?_⟩
      simp [ThreadLocalMember.getAttr, hm, getOrSetLv, hs, hv]
    | none =>
      refine ⟨⟨some (lv.read t).2⟩, ?_⟩
      simp [ThreadLocalMember.getAttr, hm, hs, hv]

/-- C10: without a declared initial value, reading the attribute before any
assignment raises AttributeError (also after any number of failed reads);
with a declared initial value, the slot starts absent and the first read in
any thread materializes it lazily and returns the default; after arbitrary
operations, a read by a thread that never assigned returns the declared
default, or, when no default was declared, the first value ever assigned to
the attribute of that instance. -/
theorem thread_local_member_spec {γ : Type} (d v₀ : γ) (t t₁ : Nat)
    (pre rest ops : List (TLOp γ)) :
    (ThreadLocalMember.getAttr (⟨none⟩ : ThreadLocalMember γ) ⟨none⟩ t
      = .error ()) ∧
    ((∀ op ∈ pre, opWriters op = ([] : List Nat)) →
      ThreadLocalMember.getAttr (⟨none⟩ : ThreadLocalMember γ)
        (runOps ⟨none⟩ pre ⟨none⟩) t = .error ()) ∧
    ((⟨none⟩ : InstanceState γ).slot = none ∧
      ThreadLocalMember.getAttr (⟨some d⟩ : ThreadLocalMember γ) ⟨none⟩ t
        = .ok (d, ⟨some ⟨d, [(t, d)]⟩⟩)) ∧
    (t₁ ∉ writersOf ops →
      ∃ s₂, ThreadLocalMember.getAttr (⟨some d⟩ : ThreadLocalMember γ)
          (runOps ⟨some d⟩ ops ⟨none⟩) t₁ = .ok (d, s₂)) ∧
    ((∀ op ∈ pre, opWriters op = ([] : List Nat)) →
      t₁ ∉ writersOf (pre ++ TLOp.wr t v₀ :: rest) →
      ∃ s₂, ThreadLocalMember.getAttr (⟨none⟩ : ThreadLocalMember γ)
          (runOps ⟨none⟩ (pre ++ TLOp.wr t v₀ :: rest) ⟨none⟩) t₁
        = .ok (v₀, s₂)) := by
  refine ⟨rfl, ?_, ⟨rfl, rfl⟩, ?_, ?_⟩
  · intro hpre
    rw [runOps_reads_fresh pre hpre]
    rfl
  · intro ht
    have hstart : GoodState d (⟨some d⟩ : ThreadLocalMember γ) [] ⟨none⟩ :=
      ⟨fun _ => rfl, fun lv hlv => Option.noConfusion hlv⟩
    have hrun := runOps_good d ⟨some d⟩ ops [] ⟨none⟩ hstart
    rw [List.nil_append] at hrun
    exact getAttr_good d ⟨some d⟩ (writersOf ops) _ t₁ hrun ht (Or.inl rfl)
  · intro hpre ht
    have hstate : runOps (⟨none⟩ : ThreadLocalMember γ)
        (pre ++ TLOp.wr t v₀ :: rest) ⟨none⟩
        = runOps ⟨none⟩ rest ⟨some ⟨v₀, [(t, v₀)]⟩⟩ := by
      rw [runOps_append, runOps_reads_fresh pre hpre]
      rfl
    have hgood : GoodState v₀ (⟨none⟩ : ThreadLocalMember γ) [t]
        ⟨some ⟨v₀, [(t, v₀)]⟩⟩ := by
      refine ⟨fun hc => Option.noConfusion hc, fun lv hlv => ?_⟩
      obtain rfl := Option.some.inj hlv
      refine ⟨rfl, fun t₂ v₂ hl => ?_⟩
      by_cases hte : t₂ = t
      · subst hte
        exact Or.inl (List.mem_singleton.mpr rfl)
      · simp only [lookupT, if_neg hte] at hl
        exact Option.noConfusion hl
    have hrun := runOps_good v₀ ⟨none⟩ rest [t] ⟨some ⟨v₀, [(t, v₀)]⟩⟩ hgood
    have ht₂ : t₁ ∉ [t] ++ writersOf rest := by
      intro hmem
      exact ht (by
        rw [writersOf_append]
        exact List.mem_append_right _ hmem)
    have hsl : (runOps (⟨none⟩ : ThreadLocalMember γ) rest
        ⟨some ⟨v₀, [(t, v₀)]⟩⟩).slot ≠ none :=
      runOps_slot_some ⟨none⟩ rest ⟨some ⟨v₀, [(t, v₀)]⟩⟩
        (fun hc => Option.noConfusion hc)
    rw [hstate]
    exact getAttr_good v₀ ⟨none⟩ ([t] ++ writersOf rest) _ t₁ hrun ht₂
      (Or.inr hsl)

/-- C10 witness: with no default, a fresh read raises; with default 7, a read
by thread 1 after thread 0 wrote 5 returns 7; with no default, after thread 0
first wrote 9 and later 3, a read by thread 1 returns 9. -/
theorem thread_local_member_spec_witness :
    (ThreadLocalMember.getAttr (⟨none⟩ : ThreadLocalMember Nat) ⟨none⟩ 0
      = .error ()) ∧
    (∃ s₂, ThreadLocalMember.getAttr (⟨some 7⟩ : ThreadLocalMember Nat)
        (runOps ⟨some 7⟩ [TLOp.wr 0 5] ⟨none⟩) 1 = .ok (7, s₂)) ∧
    (∃ s₂, ThreadLocalMember.getAttr (⟨none⟩ : ThreadLocalMember Nat)
        (runOps ⟨none⟩ ([TLOp.rd 1] ++ TLOp.wr 0 9 :: [TLOp.wr 0 3]) ⟨none⟩) 1
      = .ok (9, s₂)) := by
  have h := thread_local_member_spec 7 9 0 1 [TLOp.rd 1] [TLOp.wr 0 3]
    [TLOp.wr 0 5]
  exact ⟨h.1, h.2.2.2.1 (by decide), h.2.2.2.2 (by simp [opWriters])
    (by decide)⟩
